import Mathlib

/-!
Verification of the V20 signal-detection core and the ingest/merge logic of the
indian_stock_analytics repository, as a shallow embedding.

Sources embedded:
  - v_20_signal_local.py / v_20_signal_cloud.py : green-run detection, V20
    filter, retest engine, status computation, actionable-signal reporting,
    and the per-symbol partition loader (load_combined_symbol).
  - load_daily_nse_data.py : in-batch deduplication by highest turnover and
    the staged upsert (INSERT ... ON CONFLICT (symbol, date) DO UPDATE).

Dates are modelled as naturals (only their ordering matters), prices and
turnover as rationals.
-/

namespace StockAnalytics

/-- One daily OHLC row, as produced by the ingest pipeline.  Mirrors the
columns the embedded code actually reads: symbol, date, the four price
columns and turnoverinrs. -/
structure DailyRecord where
  symbol : String
  date : Nat
  openprice : ℚ
  highprice : ℚ
  lowprice : ℚ
  closeprice : ℚ
  turnoverinrs : ℚ
deriving DecidableEq, Repr

/-- The key of the persisted table: (symbol, date), per the
`ON CONFLICT (symbol, date)` clause of load_daily_nse_data.py. -/
def key (r : DailyRecord) : String × Nat := (r.symbol, r.date)

/-- Green-candle flag: `df['green'] = df['closeprice'] > df['openprice']`. -/
def green (r : DailyRecord) : Bool := decide (r.openprice < r.closeprice)

/-- An aggregated run row, as produced by the groupby-agg in step 5 of
v_20_signal_local.py (start_date/end_date/buy_price/sell_price/length). -/
structure Run where
  start_date : Nat
  end_date : Nat
  buy_price : ℚ
  sell_price : ℚ
  length : Nat
deriving DecidableEq, Repr

/-- `runs['gain_pct'] = (runs['sell_price'] - runs['buy_price']) / runs['buy_price'] * 100`. -/
def gain_pct (r : Run) : ℚ := (r.sell_price - r.buy_price) / r.buy_price * 100

/-- The V20 filter:
`v20 = runs[(runs['length'] >= 2) & (runs['gain_pct'] >= 20)]`. -/
def v20 (runs : List Run) : List Run :=
  runs.filter (fun r => decide (2 ≤ r.length) && decide (20 ≤ gain_pct r))

/-- The maximal contiguous constant-green segments of a series.  The source
assigns `run_id = (green != green.shift()).cumsum()` and then groups by
`run_id`; grouping by that id is exactly chunking the (date-ordered) frame
into maximal segments of records whose green flag agrees — see
`runIdsFrom` below for the id computation itself and the theorem on C3 for
the bridge between the two. -/
def blocks : List DailyRecord → List (List DailyRecord)
  | [] => []
  | r :: rs =>
    (r :: rs.takeWhile (fun x => green x == green r)) ::
      blocks (rs.dropWhile (fun x => green x == green r))
termination_by l => l.length
decreasing_by
  simp only [List.length_cons]
  exact Nat.lt_succ_of_le (List.Sublist.length_le (List.dropWhile_sublist _))

/-- The shared green flag of a block (blocks are never empty). -/
def blockFlag : List DailyRecord → Bool
  | [] => false
  | r :: _ => green r

/-- The run-id scan of `(df['green'] != df['green'].shift()).cumsum()`:
`prev` is the previous record's green flag (`none` for the NaN produced by
`shift()` at the first row, which compares unequal to any boolean), `n` the
running count of changes so far. -/
def runIdsFrom (prev : Option Bool) (n : Nat) : List DailyRecord → List Nat
  | [] => []
  | r :: rs =>
    let n2 := if prev == some (green r) then n else n + 1
    n2 :: runIdsFrom (some (green r)) n2 rs

/-- The run-id column assigned to a series by the source. -/
def runIds (l : List DailyRecord) : List Nat := runIdsFrom none 0 l

/-- Run ids spelled blockwise: block number i (0-based) gets id i + n + 1,
each repeated once per record of the block. -/
def replicateIds (n : Nat) : List (List DailyRecord) → List Nat
  | [] => []
  | b :: bs => List.replicate b.length (n + 1) ++ replicateIds (n + 1) bs

/-- The groupby-agg of step 5: first date, last date, min lowprice,
max highprice, record count of a (green) block. -/
def mkRun (b : List DailyRecord) : Run :=
  { start_date := ((b.map (fun r => r.date)).head?).getD 0
  , end_date := ((b.map (fun r => r.date)).getLast?).getD 0
  , buy_price := ((b.map (fun r => r.lowprice)).min?).getD 0
  , sell_price := ((b.map (fun r => r.highprice)).max?).getD 0
  , length := b.length }

/-- The Run Detector's output consumed by the V20 filter: the aggregation of
the green groups only (`df[df['green']].groupby('run_id')`). -/
def runsOf (df : List DailyRecord) : List Run :=
  ((blocks df).filter (fun b => blockFlag b)).map mkRun

/-- Buy-retest detection (step 8a of v_20_signal_local.py):
`dates = df.loc[(df['date'] > row.start_date) & (df['lowprice'] <= row.buy_price), 'date']`,
then `dates.min()` when nonempty, else missing. -/
def buyRetestDate (df : List DailyRecord) (s : Run) : Option Nat :=
  ((df.filter (fun r =>
      decide (s.start_date < r.date) && decide (r.lowprice ≤ s.buy_price))).map
    (fun r => r.date)).min?

/-- Sell-retest detection: evaluated only when the buy retest occurred;
`dates = df.loc[(df['date'] > row.buy_retest_date) & (df['highprice'] >= row.sell_price), 'date']`,
then `dates.min()` when nonempty, else missing. -/
def sellRetestDate (df : List DailyRecord) (s : Run) : Option Nat :=
  match buyRetestDate df s with
  | none => none
  | some b =>
    ((df.filter (fun r =>
        decide (b < r.date) && decide (s.sell_price ≤ r.highprice))).map
      (fun r => r.date)).min?

/-- `ARR_THRESHOLD = 0.02` of step 8b. -/
def ARR_THRESHOLD : ℚ := 2 / 100

/-- `_compute_buy_status` of step 8b: Completed when the buy retest exists,
else About to Arrive when some later record's lowprice comes within the 2%
band (`sub['lowprice'].min() <= row.buy_price * (1 + ARR_THRESHOLD)` on the
nonempty `sub = df[df['date'] > row.start_date]`), else Pending. -/
def buyStatus (df : List DailyRecord) (s : Run) : String :=
  if (buyRetestDate df s).isSome then "Completed"
  else
    match ((df.filter (fun r => decide (s.start_date < r.date))).map
        (fun r => r.lowprice)).min? with
    | some m => if m ≤ s.buy_price * (1 + ARR_THRESHOLD) then "About to Arrive" else "Pending"
    | none => "Pending"

/-- Sell status of step 8b: Completed exactly when the sell retest exists. -/
def sellStatus (df : List DailyRecord) (s : Run) : String :=
  if (sellRetestDate df s).isSome then "Completed" else "Pending"

/-- A retest-augmented V20 signal row. -/
structure Signal where
  run : Run
  buy_retest_date : Option Nat
  sell_retest_date : Option Nat
  buy_status : String
  sell_status : String
deriving DecidableEq, Repr

/-- The per-symbol detection pass: V20 runs augmented with retest dates and
statuses (steps 7–8b / process_symbol lines 108–141). -/
def signalsOf (df : List DailyRecord) : List Signal :=
  (v20 (runsOf df)).map (fun r =>
    { run := r
    , buy_retest_date := buyRetestDate df r
    , sell_retest_date := sellRetestDate df r
    , buy_status := buyStatus df r
    , sell_status := sellStatus df r })

/-- `actionable = v20.loc[~((v20['buy_status']=='Completed') & (v20['sell_status']=='Completed'))]`. -/
def actionable (sigs : List Signal) : List Signal :=
  sigs.filter (fun s => !(s.buy_status == "Completed" && s.sell_status == "Completed"))

/-- Retest-date rendering: the explicit None marker of the report line
(`row.buy_retest_date.date() if pd.notnull(row.buy_retest_date) else 'None'`). -/
def fmtOptDate : Option Nat → String
  | none => "None"
  | some d => toString d

/-- One summary line per actionable signal, mirroring the field layout of the
cloud reporter's f-string (decorative emoji and the fixed-point `:.2f` number
formatting are rendering details abstracted by `toString`). -/
def renderLine (s : Signal) : String :=
  "Buy: " ++ toString s.run.start_date ++ " @ " ++ toString s.run.buy_price ++
  " | Sell: " ++ toString s.run.end_date ++ " @ " ++ toString s.run.sell_price ++
  " | Gain: " ++ toString (gain_pct s.run) ++ "% | BuyRetest: " ++
  fmtOptDate s.buy_retest_date ++ " (" ++ s.buy_status ++ ") | SellRetest: " ++
  fmtOptDate s.sell_retest_date ++ " (" ++ s.sell_status ++ ")"

/-- The reporter (process_symbol lines 144–161): nothing is sent when the
actionable set is empty; otherwise a message of a symbol header line followed
by one rendered line per actionable signal.  (The cloud code also prepends a
data-coverage header, likewise carrying only the symbol and the series
date range.) -/
def reportMessage (symbol : String) (sigs : List Signal) : Option String :=
  if actionable sigs = [] then none
  else some (String.intercalate "\n"
    ((symbol ++ " V20 Signals:") :: (actionable sigs).map renderLine))

/-- Does `seg` occur at the head of `l`? -/
def segAt : List Char → List Char → Bool
  | _, [] => true
  | [], _ :: _ => false
  | a :: as, b :: bs => a == b && segAt as bs

/-- Does `seg` occur contiguously anywhere in `l`? -/
def hasSeg : List Char → List Char → Bool
  | [], seg => seg.isEmpty
  | a :: as, seg => segAt (a :: as) seg || hasSeg as seg

/-- Substring test used to state what a rendered line does and does not
contain. -/
def strContains (hay seg : String) : Bool := hasSeg hay.data seg.data

/-- `drop_duplicates` keeping the first record for each key value. -/
def dropDupBy {κ : Type} [DecidableEq κ] (f : DailyRecord → κ) :
    List DailyRecord → List DailyRecord
  | [] => []
  | r :: rs => r :: dropDupBy f (rs.filter (fun x => !(f x == f r)))
termination_by l => l.length
decreasing_by
  simp only [List.length_cons]
  exact Nat.lt_succ_of_le (List.length_filter_le _ _)

/-- `full_df.sort_values("turnoverinrs", ascending=False)`. -/
def sortByTurnoverDesc (l : List DailyRecord) : List DailyRecord :=
  l.mergeSort (fun a b => decide (b.turnoverinrs ≤ a.turnoverinrs))

/-- The in-batch deduplication of load_daily_nse_data.py lines 112–117:
sort by turnover descending, then `drop_duplicates(subset=["symbol","date"],
keep="first")`. -/
def dedupBatch (batch : List DailyRecord) : List DailyRecord :=
  dropDupBy key (sortByTurnoverDesc batch)

/-- The persisted (symbol, date)-keyed table. -/
abbrev Store : Type := String × Nat → Option DailyRecord

/-- Upserting one staged row: insert the new key or overwrite every non-key
column of the existing row (the `DO UPDATE SET` branch assigns all of them
from EXCLUDED, so the whole surviving row equals the staged row). -/
def applyRow (store : Store) (r : DailyRecord) : Store :=
  fun k => if key r == k then some r else store k

/-- Upserting the staged rows one at a time. -/
def applyRows (store : Store) : List DailyRecord → Store
  | [] => store
  | r :: rs => applyRows (applyRow store r) rs

/-- The full merge of a batch: stage the deduplicated batch, then upsert it
into the persisted table. -/
def mergeStore (store : Store) (batch : List DailyRecord) : Store :=
  applyRows store (dedupBatch batch)

/-- Modelled from the spec: the transactional wrapper around the upsert
(`with engine.begin() as conn: conn.execute(merge_sql)`).  The commit/rollback
semantics live in the SQLAlchemy/PostgreSQL storage layer, not in src: the
spec states that a storage-layer fault during merge aborts the whole batch
with no partial commit and surfaces as a merge failure.  `faultAt = some i`
with `i` inside the staged batch models a fault while writing staged row `i`:
the transaction rolls back to the pre-merge state and the error propagates;
otherwise the whole staged batch commits. -/
def mergeTxn (faultAt : Option Nat) (store : Store) (batch : List DailyRecord) :
    Store × Except String Unit :=
  match faultAt with
  | some i =>
    if i < (dedupBatch batch).length then (store, Except.error "MergeFailure")
    else (mergeStore store batch, Except.ok ())
  | none => (mergeStore store batch, Except.ok ())

/-- The Series Loader (v_20_signal_cloud.py, load_combined_symbol):
partitions are given in listing order (`fs.ls` returns the date-named
directories ascending, oldest ingestion date first), each contributing the
records found for the symbol (an empty list when the partition has no file
for it).  The found frames are concatenated in that order, deduplicated on
date (`drop_duplicates(subset=['date'])`, default keep='first'), then sorted
ascending by date. -/
def load_combined_symbol (partitions : List (List DailyRecord)) : List DailyRecord :=
  (dropDupBy (fun r => r.date) partitions.flatten).mergeSort
    (fun a b => decide (a.date ≤ b.date))

/-- A concrete daily record with fixed symbol and zero turnover, used for
test vectors. -/
def mkRec (d : Nat) (o hi lo c : ℚ) : DailyRecord :=
  { symbol := "X", date := d, openprice := o, highprice := hi,
    lowprice := lo, closeprice := c, turnoverinrs := 0 }

/-- The spec §8 scenario series: two green days then two red days. -/
def specSeries : List DailyRecord :=
  [mkRec 1 10 13 9 12, mkRec 2 12 16 11 15, mkRec 3 9 10 7 8, mkRec 4 8 9 6 7]

/-- The single green run of the spec §8 scenario. -/
def specRun : Run :=
  { start_date := 1, end_date := 2, buy_price := 9, sell_price := 16, length := 2 }

/-- Concrete run used by the spec's V20-threshold test vector:
buy 100, sell 121, length 3. -/
def runIncl : Run :=
  { start_date := 0, end_date := 2, buy_price := 100, sell_price := 121, length := 3 }

/-- Spec test vector: buy 100, sell 119, length 3 (19% gain). -/
def runLowGain : Run :=
  { start_date := 0, end_date := 2, buy_price := 100, sell_price := 119, length := 3 }

/-- Spec test vector: length-1 run with 25% gain. -/
def runShort : Run :=
  { start_date := 0, end_date := 0, buy_price := 100, sell_price := 125, length := 1 }

/-- The spec §8 scenario extended with a fifth day whose high reaches the
sell price, so that both retests occur. -/
def specSeries2 : List DailyRecord :=
  specSeries ++ [mkRec 5 10 17 8 9]

/-- A concrete actionable signal (buy retest done, sell retest pending) over
the 21%-gain run, used to exercise the reporter. -/
def sig0 : Signal :=
  { run := runIncl, buy_retest_date := some 3, sell_retest_date := none,
    buy_status := "Completed", sell_status := "Pending" }

/-- A high-turnover candidate for key ("A", 1). -/
def recHigh : DailyRecord :=
  { symbol := "A", date := 1, openprice := 10, highprice := 12, lowprice := 9,
    closeprice := 11, turnoverinrs := 10 }

/-- A low-turnover candidate for the same key ("A", 1). -/
def recLow : DailyRecord :=
  { symbol := "A", date := 1, openprice := 10, highprice := 13, lowprice := 8,
    closeprice := 12, turnoverinrs := 5 }

/-- The record for date 5 held by the earlier-listed (older) partition. -/
def recOld : DailyRecord :=
  { symbol := "X", date := 5, openprice := 1, highprice := 2, lowprice := 1,
    closeprice := 1, turnoverinrs := 5 }

/-- The record for date 5 held by the later-listed (more recent) partition:
different prices and strictly higher turnover. -/
def recNew : DailyRecord :=
  { symbol := "X", date := 5, openprice := 1, highprice := 3, lowprice := 1,
    closeprice := 2, turnoverinrs := 10 }

/-- The everywhere-empty persisted table. -/
def emptyStore : Store := fun _ => none

/-- `List.min?` over a linear order returns exactly the least member. -/
theorem min?_eq_some_iff_lin {α : Type} [LinearOrder α] {l : List α} {a : α} :
    l.min? = some a ↔ a ∈ l ∧ ∀ b ∈ l, a ≤ b := by
  letI : Std.Antisymm (fun x y : α => x ≤ y) := ⟨fun h h2 => le_antisymm h h2⟩
  exact List.min?_eq_some_iff
    (fun x => le_refl x) (fun x y => min_choice x y) (fun x y z => le_min_iff)

/-- The minimum of the dates of the records matching a predicate is the
earliest matching date. -/
theorem min?_date_filter_some (df : List DailyRecord) (p : DailyRecord → Bool) (d : Nat) :
    ((df.filter p).map (fun r => r.date)).min? = some d ↔
    (∃ r ∈ df, p r ∧ r.date = d) ∧ ∀ r ∈ df, p r → d ≤ r.date := by
  rw [min?_eq_some_iff_lin]
  simp only [List.mem_map, List.mem_filter]
  constructor
  · rintro ⟨⟨r, ⟨hr, hp⟩, hd⟩, hle⟩
    exact ⟨⟨r, hr, hp, hd⟩, fun r2 h2 hp2 => hle r2.date ⟨r2, ⟨h2, hp2⟩, rfl⟩⟩
  · rintro ⟨⟨r, hr, hp, hd⟩, hle⟩
    exact ⟨⟨r, ⟨hr, hp⟩, hd⟩, fun b hb => by
      obtain ⟨r2, ⟨h2, hp2⟩, hd2⟩ := hb
      exact hd2 ▸ hle r2 h2 hp2⟩

/-- No matching record means no minimum date. -/
theorem min?_date_filter_none (df : List DailyRecord) (p : DailyRecord → Bool) :
    ((df.filter p).map (fun r => r.date)).min? = none ↔ ∀ r ∈ df, ¬ p r = true := by
  simp [List.min?_eq_none_iff, List.filter_eq_nil_iff]

/-- C2: buy_retest_date is the earliest date strictly after start_date with
lowprice ≤ buy_price (undefined when none exists); sell_retest_date is the
earliest date strictly after buy_retest_date with highprice ≥ sell_price,
and is undefined whenever buy_retest_date is. -/
theorem c2_retest_earliest (df : List DailyRecord) (s : Run) :
    (∀ d, buyRetestDate df s = some d ↔
      ((∃ r ∈ df, (s.start_date < r.date ∧ r.lowprice ≤ s.buy_price) ∧ r.date = d) ∧
       ∀ r ∈ df, s.start_date < r.date → r.lowprice ≤ s.buy_price → d ≤ r.date)) ∧
    (buyRetestDate df s = none ↔
      ∀ r ∈ df, s.start_date < r.date → ¬ r.lowprice ≤ s.buy_price) ∧
    (buyRetestDate df s = none → sellRetestDate df s = none) ∧
    (∀ b, buyRetestDate df s = some b →
      ((∀ d, sellRetestDate df s = some d ↔
        ((∃ r ∈ df, (b < r.date ∧ s.sell_price ≤ r.highprice) ∧ r.date = d) ∧
         ∀ r ∈ df, b < r.date → s.sell_price ≤ r.highprice → d ≤ r.date)) ∧
       (sellRetestDate df s = none ↔
        ∀ r ∈ df, b < r.date → ¬ s.sell_price ≤ r.highprice))) := by
  refine ⟨fun d => ?_, ?_, fun h => ?_, fun b hb => ⟨fun d => ?_, ?_⟩⟩
  · rw [buyRetestDate, min?_date_filter_some]
    simp [and_assoc]
  · rw [buyRetestDate, min?_date_filter_none]
    simp
  · rw [sellRetestDate, h]
  · rw [sellRetestDate, hb, min?_date_filter_some]
    simp [and_assoc]
  · rw [sellRetestDate, hb, min?_date_filter_none]
    simp

/-- Witness for C2 on the spec §8 scenario: the buy retest lands on date 3
and no sell retest exists. -/
theorem c2_retest_earliest_witness :
    buyRetestDate specSeries specRun = some 3 ∧
    sellRetestDate specSeries specRun = none := by
  have h := c2_retest_earliest specSeries specRun
  have hb : buyRetestDate specSeries specRun = some 3 := by
    refine (h.1 3).mpr ⟨⟨mkRec 3 9 10 7 8, ?_, ?_, rfl⟩, ?_⟩
    · decide
    · decide
    · decide
  refine ⟨hb, ((h.2.2.2 3 hb).2).mpr ?_⟩
  decide

/-- C1: the V20 Filter keeps exactly the runs with length ≥ 2 and
gain_pct ≥ 20, changes no run, preserves order, and behaves as the spec's
test vectors demand on the three concrete runs. -/
theorem c1_v20_filter :
    (∀ runs : List Run, (v20 runs).Sublist runs) ∧
    (∀ (runs : List Run) (r : Run),
      r ∈ v20 runs ↔ r ∈ runs ∧ 2 ≤ r.length ∧ 20 ≤ gain_pct r) ∧
    v20 [runIncl, runLowGain, runShort] = [runIncl] := by
  refine ⟨fun runs => List.filter_sublist runs, fun runs r => ?_, ?_⟩
  · simp [v20, List.mem_filter, and_assoc]
  · have g1 : gain_pct runIncl = 21 := by norm_num [gain_pct, runIncl]
    have g2 : gain_pct runLowGain = 19 := by norm_num [gain_pct, runLowGain]
    have g3 : gain_pct runShort = 25 := by norm_num [gain_pct, runShort]
    have l1 : runIncl.length = 3 := rfl
    have l2 : runLowGain.length = 3 := rfl
    have l3 : runShort.length = 1 := rfl
    norm_num [v20, List.filter_cons, g1, g2, g3, l1, l2, l3]

/-- Witness for C1: the 21%-gain length-3 run passes the filter. -/
theorem c1_v20_filter_witness :
    runIncl ∈ v20 [runIncl, runLowGain, runShort] := by
  exact (c1_v20_filter.2.1 [runIncl, runLowGain, runShort] runIncl).mpr
    ⟨by decide, by decide, by norm_num [gain_pct, runIncl]⟩

/-- The minimum of the lowprices of the records after `start_date` is below a
threshold exactly when some such record's lowprice is. -/
theorem min?_low_le_iff (df : List DailyRecord) (s : Run) (t : ℚ) :
    (∃ m, ((df.filter (fun r => decide (s.start_date < r.date))).map
      (fun r => r.lowprice)).min? = some m ∧ m ≤ t) ↔
    ∃ r ∈ df, s.start_date < r.date ∧ r.lowprice ≤ t := by
  constructor
  · rintro ⟨m, hm, hmt⟩
    obtain ⟨hmem, -⟩ := min?_eq_some_iff_lin.mp hm
    simp only [List.mem_map, List.mem_filter, decide_eq_true_eq] at hmem
    obtain ⟨r, ⟨hr, hd⟩, hl⟩ := hmem
    exact ⟨r, hr, hd, hl ▸ hmt⟩
  · rintro ⟨r, hr, hd, hl⟩
    have hrmem : r.lowprice ∈ ((df.filter (fun r => decide (s.start_date < r.date))).map
        (fun r => r.lowprice)) := by
      simp only [List.mem_map, List.mem_filter, decide_eq_true_eq]
      exact ⟨r, ⟨hr, hd⟩, rfl⟩
    cases hm : ((df.filter (fun r => decide (s.start_date < r.date))).map
        (fun r => r.lowprice)).min? with
    | none =>
      rw [List.min?_eq_none_iff] at hm
      rw [hm] at hrmem
      exact absurd hrmem (List.not_mem_nil _)
    | some m =>
      obtain ⟨-, hall⟩ := min?_eq_some_iff_lin.mp hm
      exact ⟨m, rfl, le_trans (hall _ hrmem) hl⟩

/-- When the buy retest does not occur, the status is determined by the 2%
proximity scan. -/
theorem sellRetest_none_of_buy_none (df : List DailyRecord) (s : Run)
    (h : buyRetestDate df s = none) : sellRetestDate df s = none := by
  rw [sellRetestDate, h]

/-- When the buy retest does not occur, the status is determined by the 2%
proximity scan. -/
theorem buyStatus_of_no_retest (df : List DailyRecord) (s : Run)
    (h : buyRetestDate df s = none) :
    (buyStatus df s = "About to Arrive" ↔
      ∃ r ∈ df, s.start_date < r.date ∧
        r.lowprice ≤ s.buy_price * (1 + ARR_THRESHOLD)) ∧
    (buyStatus df s = "Pending" ↔
      ¬ ∃ r ∈ df, s.start_date < r.date ∧
        r.lowprice ≤ s.buy_price * (1 + ARR_THRESHOLD)) := by
  have hP := min?_low_le_iff df s (s.buy_price * (1 + ARR_THRESHOLD))
  have hnone : (buyRetestDate df s).isSome = false := by rw [h]; rfl
  cases hm : ((df.filter (fun r => decide (s.start_date < r.date))).map
      (fun r => r.lowprice)).min? with
  | none =>
    have hstat : buyStatus df s = "Pending" := by
      rw [buyStatus, hnone]
      simp [hm]
    have hnotP : ¬ ∃ r ∈ df, s.start_date < r.date ∧
        r.lowprice ≤ s.buy_price * (1 + ARR_THRESHOLD) := by
      intro hp
      obtain ⟨m, hm2, -⟩ := hP.mpr hp
      rw [hm] at hm2
      exact Option.noConfusion hm2
    rw [hstat]
    exact ⟨⟨fun hc => absurd hc (by decide), fun hp => absurd hp hnotP⟩,
           ⟨fun _ => hnotP, fun _ => rfl⟩⟩
  | some m =>
    by_cases hle : m ≤ s.buy_price * (1 + ARR_THRESHOLD)
    · have hPtrue : ∃ r ∈ df, s.start_date < r.date ∧
          r.lowprice ≤ s.buy_price * (1 + ARR_THRESHOLD) :=
        hP.mp ⟨m, hm, hle⟩
      have hstat : buyStatus df s = "About to Arrive" := by
        rw [buyStatus, hnone]
        simp [hm, hle]
      rw [hstat]
      exact ⟨⟨fun _ => hPtrue, fun _ => rfl⟩,
             ⟨fun hc => absurd hc (by decide), fun hnp => absurd hPtrue hnp⟩⟩
    · have hnotP : ¬ ∃ r ∈ df, s.start_date < r.date ∧
          r.lowprice ≤ s.buy_price * (1 + ARR_THRESHOLD) := by
        intro hp
        obtain ⟨m2, hm2, hle2⟩ := hP.mpr hp
        rw [hm] at hm2
        exact hle (Option.some.inj hm2 ▸ hle2)
      have hstat : buyStatus df s = "Pending" := by
        rw [buyStatus, hnone]
        simp [hm, hle]
      rw [hstat]
      exact ⟨⟨fun hc => absurd hc (by decide), fun hp => absurd hp hnotP⟩,
             ⟨fun _ => hnotP, fun _ => rfl⟩⟩

/-- C8: buy_status is Completed exactly when the buy retest exists; failing
that, About to Arrive exactly when some record strictly after start_date has
lowprice within 2% above the buy price, and Pending otherwise; sell_status is
Completed exactly when the sell retest exists, else Pending. -/
theorem c8_statuses (df : List DailyRecord) (s : Run) :
    (buyStatus df s = "Completed" ↔ (buyRetestDate df s).isSome = true) ∧
    (buyRetestDate df s = none →
      ((buyStatus df s = "About to Arrive" ↔
        ∃ r ∈ df, s.start_date < r.date ∧ r.lowprice ≤ s.buy_price * 1.02) ∧
       (buyStatus df s = "Pending" ↔
        ¬ ∃ r ∈ df, s.start_date < r.date ∧ r.lowprice ≤ s.buy_price * 1.02))) ∧
    (sellStatus df s = "Completed" ↔ (sellRetestDate df s).isSome = true) ∧
    (sellStatus df s = "Pending" ↔ sellRetestDate df s = none) := by
  have hthr : s.buy_price * (1 + ARR_THRESHOLD) = s.buy_price * 1.02 := by
    rw [ARR_THRESHOLD]
    norm_num
  refine ⟨?_, fun hnone => ?_, ?_, ?_⟩
  · cases hbr : buyRetestDate df s with
    | some b => simp [buyStatus, hbr]
    | none =>
      have hs := buyStatus_of_no_retest df s hbr
      constructor
      · intro hc
        by_cases hp : ∃ r ∈ df, s.start_date < r.date ∧
            r.lowprice ≤ s.buy_price * (1 + ARR_THRESHOLD)
        · have := hs.1.mpr hp
          rw [hc] at this
          exact absurd this (by decide)
        · have := hs.2.mpr hp
          rw [hc] at this
          exact absurd this (by decide)
      · intro hc
        exact absurd hc (by decide)
  · have hs := buyStatus_of_no_retest df s hnone
    rw [hthr] at hs
    exact hs
  · rw [sellStatus]
    cases hsr : sellRetestDate df s with
    | some d => simp [hsr]
    | none => simp [hsr]
  · rw [sellStatus]
    cases hsr : sellRetestDate df s with
    | some d => simp [hsr]
    | none => simp [hsr]

/-- Witness for C8: on the full spec §8 scenario date 3 retests the buy
price, so buy_status is Completed and sell_status is Pending; on the series
cut after the green run no record comes near the buy price, so buy_status is
Pending. -/
theorem c8_statuses_witness :
    buyStatus specSeries specRun = "Completed" ∧
    sellStatus specSeries specRun = "Pending" ∧
    buyStatus [mkRec 1 10 13 9 12, mkRec 2 12 16 11 15] specRun = "Pending" := by
  have h := c8_statuses specSeries specRun
  have h2 := c8_statuses [mkRec 1 10 13 9 12, mkRec 2 12 16 11 15] specRun
  have hn : buyRetestDate [mkRec 1 10 13 9 12, mkRec 2 12 16 11 15] specRun = none := by
    decide
  refine ⟨h.1.mpr (by decide), h.2.2.2.mpr (by decide), ((h2.2.1 hn).2).mpr ?_⟩
  rintro ⟨r, hr, hlt, hle⟩
  simp only [List.mem_cons, List.not_mem_nil, or_false] at hr
  rcases hr with h3 | h3 <;> subst h3
  · norm_num [mkRec, specRun] at hlt
  · norm_num [mkRec, specRun] at hle

/-- C10: a sell retest presupposes a buy retest, the sell retest is strictly
later, sell_status Completed forces buy_status Completed, and the reporter's
actionable filter excludes a signal exactly when both statuses are
Completed. -/
theorem c10_retest_ordering (df : List DailyRecord) (s : Run) :
    ((sellRetestDate df s).isSome = true → (buyRetestDate df s).isSome = true) ∧
    (∀ b d, buyRetestDate df s = some b → sellRetestDate df s = some d → b < d) ∧
    (sellStatus df s = "Completed" → buyStatus df s = "Completed") ∧
    (∀ (sigs : List Signal) (sg : Signal), sg ∈ sigs →
      (sg ∈ actionable sigs ↔
        ¬ (sg.buy_status = "Completed" ∧ sg.sell_status = "Completed"))) := by
  refine ⟨?_, fun b d hb hd => ?_, fun hc => ?_, fun sigs sg hsg => ?_⟩
  · intro hsome
    cases hbr : buyRetestDate df s with
    | some b => rfl
    | none =>
      rw [sellRetest_none_of_buy_none df s hbr] at hsome
      exact absurd hsome (by decide)
  · rw [sellRetestDate, hb] at hd
    obtain ⟨hmem, -⟩ := min?_eq_some_iff_lin.mp hd
    simp only [List.mem_map, List.mem_filter, Bool.and_eq_true, decide_eq_true_eq] at hmem
    obtain ⟨r, ⟨-, hlt, -⟩, hdate⟩ := hmem
    exact hdate ▸ hlt
  · have hsome : (sellRetestDate df s).isSome = true := by
      rw [sellStatus] at hc
      by_cases h : (sellRetestDate df s).isSome = true
      · exact h
      · rw [if_neg h] at hc
        exact absurd hc (by decide)
    have hbsome : (buyRetestDate df s).isSome = true := by
      cases hbr : buyRetestDate df s with
      | some b => rfl
      | none =>
        rw [sellRetest_none_of_buy_none df s hbr] at hsome
        exact absurd hsome (by decide)
    rw [buyStatus, if_pos hbsome]
  · rw [actionable, List.mem_filter]
    simp only [hsg, true_and, Bool.not_eq_true', Bool.and_eq_false_iff,
      beq_eq_false_iff_ne, ne_eq]
    tauto

/-- Witness for C10 on the extended scenario: buy retest on date 3, sell
retest on date 5, strictly later, with both statuses Completed, and the
actionable filter dropping the fully completed signal. -/
theorem c10_retest_ordering_witness :
    (buyRetestDate specSeries2 specRun).isSome = true ∧ (3 : Nat) < 5 ∧
    buyStatus specSeries2 specRun = "Completed" ∧ sig0 ∈ actionable [sig0] := by
  have h := c10_retest_ordering specSeries2 specRun
  exact ⟨h.1 (by decide), h.2.1 3 5 (by decide) (by decide), h.2.2.1 (by decide),
    (h.2.2.2 [sig0] sig0 (by decide)).mpr (by decide)⟩

/-- The empty segment occurs at the head of any list. -/
theorem segAt_nil (l : List Char) : segAt l [] = true := by
  cases l <;> rfl

/-- A segment occurs at the head of itself followed by anything. -/
theorem segAt_self_append (seg rest : List Char) : segAt (seg ++ rest) seg = true := by
  induction seg with
  | nil => exact segAt_nil _
  | cons a as ih => simp [segAt, ih]

/-- `hasSeg` survives prepending. -/
theorem hasSeg_append_left (x y seg : List Char) (h : hasSeg y seg = true) :
    hasSeg (x ++ y) seg = true := by
  induction x with
  | nil => simpa using h
  | cons a as ih => simp [hasSeg, ih]

/-- A list starting with the segment contains it. -/
theorem hasSeg_here (seg rest : List Char) : hasSeg (seg ++ rest) seg = true := by
  cases seg with
  | nil =>
    cases rest with
    | nil => rfl
    | cons b bs => simp [hasSeg, segAt_nil]
  | cons a as =>
    have h := segAt_self_append (a :: as) rest
    rw [List.cons_append] at h
    simp [hasSeg, h]

/-- A head occurrence survives appending on the right. -/
theorem segAt_append_right (x y seg : List Char) (h : segAt x seg = true) :
    segAt (x ++ y) seg = true := by
  induction seg generalizing x with
  | nil => exact segAt_nil _
  | cons b bs ih =>
    cases x with
    | nil => exact absurd h (by simp [segAt])
    | cons a as =>
      rw [List.cons_append]
      simp only [segAt, Bool.and_eq_true] at h ⊢
      exact ⟨h.1, ih as h.2⟩

/-- Every list contains the empty segment. -/
theorem hasSeg_nil_seg (l : List Char) : hasSeg l [] = true := by
  cases l with
  | nil => rfl
  | cons a as => simp [hasSeg, segAt_nil]

/-- An occurrence survives appending on the right. -/
theorem hasSeg_append_right (x y seg : List Char) (h : hasSeg x seg = true) :
    hasSeg (x ++ y) seg = true := by
  induction x with
  | nil =>
    have hseg : seg = [] := by
      cases seg with
      | nil => rfl
      | cons b bs => simp [hasSeg] at h
    subst hseg
    exact hasSeg_nil_seg _
  | cons a as ih =>
    rw [List.cons_append]
    simp only [hasSeg, Bool.or_eq_true] at h ⊢
    cases h with
    | inl hl =>
      have h2 := segAt_append_right (a :: as) y seg hl
      rw [List.cons_append] at h2
      exact Or.inl h2
    | inr hr => exact Or.inr (ih hr)

/-- `strContains` survives appending on the right. -/
theorem strContains_drop_right (x y seg : String) (h : strContains x seg = true) :
    strContains (x ++ y) seg = true := by
  rw [strContains, String.data_append]
  exact hasSeg_append_right _ _ _ h

/-- A string ending with the segment contains it. -/
theorem strContains_at_end (x seg : String) : strContains (x ++ seg) seg = true := by
  rw [strContains, String.data_append]
  refine hasSeg_append_left _ _ _ ?_
  have h := hasSeg_here seg.data []
  rwa [List.append_nil] at h

/-- Counterexample for C9: the reporter does send a message for this
actionable signal, but the signal's single summary line does not contain the
symbol — the symbol appears only in the message's header line. -/
theorem c9_reporter_counterexample :
    (reportMessage "WXYZ" [sig0]).isSome = true ∧
    strContains (renderLine sig0) "WXYZ" = false := by
  have hg : toString (gain_pct sig0.run) = "21" := by
    have h21 : gain_pct sig0.run = 21 := by norm_num [gain_pct, sig0, runIncl]
    rw [h21]
    decide
  have hline : renderLine sig0 =
      "Buy: 0 @ 100 | Sell: 2 @ 121 | Gain: 21% | BuyRetest: 3 (Completed) | SellRetest: None (Pending)" := by
    rw [renderLine, hg]
    decide
  refine ⟨by decide, ?_⟩
  rw [hline]
  decide

/-- C9 (amended): the reporter emits nothing exactly when the actionable
set — the signals with NOT (buy_status = Completed AND sell_status =
Completed) — is empty; otherwise it emits the symbol header followed by one
rendered line per actionable signal; each line carries the dates, prices,
gain, both retest dates (None marker when undefined) and both statuses (the
symbol itself only appears in the header); and an empty series yields zero
runs, zero signals and no output. -/
theorem c9_reporter :
    (∀ (sym : String) (sigs : List Signal),
      reportMessage sym sigs = none ↔ actionable sigs = []) ∧
    (∀ (sigs : List Signal) (sg : Signal),
      sg ∈ actionable sigs ↔
        sg ∈ sigs ∧ ¬ (sg.buy_status = "Completed" ∧ sg.sell_status = "Completed")) ∧
    (∀ (sym : String) (sigs : List Signal), actionable sigs ≠ [] →
      reportMessage sym sigs = some (String.intercalate "\n"
        ((sym ++ " V20 Signals:") :: (actionable sigs).map renderLine))) ∧
    (∀ sg : Signal,
      strContains (renderLine sg) (toString sg.run.start_date) = true ∧
      strContains (renderLine sg) (toString sg.run.end_date) = true ∧
      strContains (renderLine sg) (toString sg.run.buy_price) = true ∧
      strContains (renderLine sg) (toString sg.run.sell_price) = true ∧
      strContains (renderLine sg) (toString (gain_pct sg.run)) = true ∧
      strContains (renderLine sg) (fmtOptDate sg.buy_retest_date) = true ∧
      strContains (renderLine sg) (fmtOptDate sg.sell_retest_date) = true ∧
      strContains (renderLine sg) sg.buy_status = true ∧
      strContains (renderLine sg) sg.sell_status = true) ∧
    fmtOptDate none = "None" ∧
    runsOf [] = [] ∧ signalsOf [] = [] ∧
    (∀ sym : String, reportMessage sym (signalsOf []) = none) := by
  have hruns : runsOf ([] : List DailyRecord) = [] := by
    simp [runsOf, blocks]
  have hsigs : signalsOf ([] : List DailyRecord) = [] := by
    simp [signalsOf, v20, hruns]
  have hmsg : ∀ sym : String, reportMessage sym (signalsOf []) = none := by
    intro sym
    simp [reportMessage, hsigs, actionable]
  refine ⟨fun sym sigs => ?_, fun sigs sg => ?_, fun sym sigs h => ?_,
    fun sg => ?_, rfl, hruns, hsigs, hmsg⟩
  · rw [reportMessage]
    by_cases h : actionable sigs = []
    · simp [h]
    · simp [h]
  · rw [actionable, List.mem_filter]
    simp only [Bool.not_eq_true', Bool.and_eq_false_iff, beq_eq_false_iff_ne, ne_eq]
    tauto
  · rw [reportMessage, if_neg h]
  · rw [renderLine]
    refine ⟨?_, ?_, ?_, ?_, ?_, ?_, ?_, ?_, ?_⟩
    · iterate 17 apply strContains_drop_right
      exact strContains_at_end _ _
    · iterate 13 apply strContains_drop_right
      exact strContains_at_end _ _
    · iterate 15 apply strContains_drop_right
      exact strContains_at_end _ _
    · iterate 11 apply strContains_drop_right
      exact strContains_at_end _ _
    · iterate 9 apply strContains_drop_right
      exact strContains_at_end _ _
    · iterate 7 apply strContains_drop_right
      exact strContains_at_end _ _
    · iterate 3 apply strContains_drop_right
      exact strContains_at_end _ _
    · iterate 5 apply strContains_drop_right
      exact strContains_at_end _ _
    · iterate 1 apply strContains_drop_right
      exact strContains_at_end _ _

/-- Witness for C9: the reporter sends exactly the header plus the rendered
line for the one actionable signal. -/
theorem c9_reporter_witness :
    reportMessage "RELIANCE" [sig0] = some (String.intercalate "\n"
      (("RELIANCE" ++ " V20 Signals:") :: (actionable [sig0]).map renderLine)) := by
  exact c9_reporter.2.2.1 "RELIANCE" [sig0] (by decide)

/-- The first record surviving `dropWhile` fails the predicate. -/
theorem dropWhile_head_false (p : DailyRecord → Bool) :
    ∀ (l : List DailyRecord) (x : DailyRecord) (xs : List DailyRecord),
      l.dropWhile p = x :: xs → p x = false := by
  intro l
  induction l with
  | nil => intro x xs h; simp [List.dropWhile] at h
  | cons a as ih =>
    intro x xs h
    rw [List.dropWhile_cons] at h
    by_cases hp : p a = true
    · rw [if_pos hp] at h
      exact ih x xs h
    · rw [if_neg hp] at h
      cases h
      simpa using hp

/-- The blocks concatenate back to the original series: every record belongs
to exactly one block, in order, with no gaps or overlaps. -/
theorem blocks_flatten (l : List DailyRecord) : (blocks l).flatten = l := by
  induction l using blocks.induct with
  | case1 => simp [blocks]
  | case2 r rs ih =>
    rw [blocks]
    simp only [List.flatten_cons]
    rw [ih, List.cons_append, List.takeWhile_append_dropWhile]

/-- Every block is nonempty and carries a single green flag. -/
theorem blocks_sound (l : List DailyRecord) :
    ∀ b ∈ blocks l, b ≠ [] ∧ ∀ x ∈ b, green x = blockFlag b := by
  induction l using blocks.induct with
  | case1 => simp [blocks]
  | case2 r rs ih =>
    rw [blocks]
    intro b hb
    rcases List.mem_cons.mp hb with h | h
    · subst h
      refine ⟨by simp, ?_⟩
      intro x hx
      rcases List.mem_cons.mp hx with h2 | h2
      · subst h2; rfl
      · have h3 := List.mem_takeWhile_imp h2
        simpa [blockFlag] using h3
    · exact ih b h

/-- Adjacent blocks carry different green flags (the blocks are maximal). -/
theorem blocks_chain (l : List DailyRecord) :
    List.Chain' (fun b1 b2 => blockFlag b1 ≠ blockFlag b2) (blocks l) := by
  induction l using blocks.induct with
  | case1 => simp [blocks]
  | case2 r rs ih =>
    rw [blocks]
    cases hd : rs.dropWhile (fun x => green x == green r) with
    | nil => simp [blocks]
    | cons x xs =>
      rw [hd] at ih
      rw [List.chain'_cons']
      refine ⟨?_, ih⟩
      intro y hy
      rw [blocks] at hy
      simp only [List.head?_cons, Option.mem_def, Option.some.injEq] at hy
      subst hy
      have hfalse := dropWhile_head_false _ rs x xs hd
      simp only [beq_eq_false_iff_ne, ne_eq] at hfalse
      simp only [blockFlag]
      exact fun hc => hfalse hc.symm

/-- Within a constant-flag prefix the run-id scan emits the current id
unchanged. -/
theorem runIdsFrom_constant (g : Bool) (m : Nat) :
    ∀ (t d : List DailyRecord), (∀ x ∈ t, green x = g) →
      runIdsFrom (some g) m (t ++ d) =
        List.replicate t.length m ++ runIdsFrom (some g) m d := by
  intro t
  induction t with
  | nil => intro d h; simp
  | cons a as ih =>
    intro d h
    have ha : green a = g := h a (List.mem_cons_self a as)
    rw [List.cons_append]
    simp only [runIdsFrom, ha, beq_self_eq_true, if_true]
    rw [ih d (fun x hx => h x (List.mem_cons_of_mem a hx))]
    simp [List.replicate_succ]

/-- The cumsum-of-changes run ids are exactly the blockwise ids: every record
of block i (counting from zero after `n` earlier blocks) receives id
n + i + 1, so ids are constant on blocks and increment across block
boundaries. -/
theorem runIdsFrom_blocks :
    ∀ (l : List DailyRecord) (p : Option Bool) (n : Nat),
      (∀ x xs, l = x :: xs → p ≠ some (green x)) →
      runIdsFrom p n l = replicateIds n (blocks l) := by
  intro l
  induction l using blocks.induct with
  | case1 => intro p n h; rw [blocks]; rfl
  | case2 r rs ih =>
    intro p n h
    have hp : p ≠ some (green r) := h r rs rfl
    have hbeq : (p == some (green r)) = false := by
      simpa [beq_eq_false_iff_ne] using hp
    rw [blocks, replicateIds]
    simp only [runIdsFrom, hbeq, Bool.false_eq_true, if_false]
    conv_lhs => rw [← List.takeWhile_append_dropWhile (fun x => green x == green r) rs]
    rw [runIdsFrom_constant (green r) (n + 1) _ _
      (fun x hx => by simpa using List.mem_takeWhile_imp hx)]
    rw [ih (some (green r)) (n + 1) ?hnext]
    case hnext =>
      intro x xs hx
      have hfalse := dropWhile_head_false _ rs x xs hx
      simp only [beq_eq_false_iff_ne, ne_eq] at hfalse
      intro hc
      exact hfalse ((Option.some.inj hc).symm)
    simp [List.replicate_succ, List.length_cons]

/-- The run-id column is the blockwise numbering starting at 1. -/
theorem runIds_blocks (l : List DailyRecord) :
    runIds l = replicateIds 0 (blocks l) := by
  exact runIdsFrom_blocks l none 0 (fun x xs h => by simp)

/-- Counterexample for C3: the first record receives run id 1, not 0 —
`green != green.shift()` is True at the first row because the shifted value
is NaN, so the cumulative sum already starts at 1. -/
theorem c3_counterexample :
    runIds [mkRec 1 10 13 9 12] = [1] ∧ runIds [mkRec 1 10 13 9 12] ≠ [0] := by
  decide

/-- C3 (amended): the Run Detector's blocks partition the series with no
gaps and no overlaps, each block is a nonempty contiguous segment of
constant green flag, adjacent blocks differ in flag, and the run-id column
is exactly the blockwise numbering that gives the first record run id 1
regardless of its flag value. -/
theorem c3_run_partition (l : List DailyRecord) :
    (blocks l).flatten = l ∧
    (∀ b ∈ blocks l, b ≠ [] ∧ ∀ x ∈ b, green x = blockFlag b) ∧
    List.Chain' (fun b1 b2 => blockFlag b1 ≠ blockFlag b2) (blocks l) ∧
    runIds l = replicateIds 0 (blocks l) ∧
    (∀ r rs, l = r :: rs → (runIds l).head? = some 1) := by
  refine ⟨blocks_flatten l, blocks_sound l, blocks_chain l, runIds_blocks l, ?_⟩
  intro r rs h
  subst h
  simp [runIds, runIdsFrom]

/-- Witness for C3 on the spec §8 scenario: the partition reassembles the
series and the first record's run id is 1. -/
theorem c3_run_partition_witness :
    (blocks specSeries).flatten = specSeries ∧ (runIds specSeries).head? = some 1 := by
  have h := c3_run_partition specSeries
  exact ⟨h.1, h.2.2.2.2 (mkRec 1 10 13 9 12)
    [mkRec 2 12 16 11 15, mkRec 3 9 10 7 8, mkRec 4 8 9 6 7] rfl⟩

/-- `dropDupBy` only keeps records of the input. -/
theorem mem_of_mem_dropDupBy {κ : Type} [DecidableEq κ] (f : DailyRecord → κ) :
    ∀ (l : List DailyRecord) (r : DailyRecord), r ∈ dropDupBy f l → r ∈ l := by
  intro l
  induction l using dropDupBy.induct f with
  | case1 => intro r h; simp [dropDupBy] at h
  | case2 a as ih =>
    intro r h
    rw [dropDupBy] at h
    rcases List.mem_cons.mp h with h2 | h2
    · exact h2 ▸ List.mem_cons_self a as
    · exact List.mem_cons_of_mem a (List.mem_filter.mp (ih r h2)).1

/-- After `dropDupBy` the key values are pairwise distinct. -/
theorem dropDupBy_keys_nodup {κ : Type} [DecidableEq κ] (f : DailyRecord → κ) :
    ∀ l : List DailyRecord, ((dropDupBy f l).map f).Nodup := by
  intro l
  induction l using dropDupBy.induct f with
  | case1 => simp [dropDupBy]
  | case2 a as ih =>
    rw [dropDupBy]
    rw [List.map_cons, List.nodup_cons]
    refine ⟨?_, ih⟩
    intro hmem
    obtain ⟨r, hr, hfr⟩ := List.mem_map.mp hmem
    have hfil := List.mem_filter.mp (mem_of_mem_dropDupBy f _ r hr)
    rw [hfr] at hfil
    simp at hfil

/-- The first record carrying each key value survives `dropDupBy`. -/
theorem first_occurrence_mem_dropDupBy {κ : Type} [DecidableEq κ] (f : DailyRecord → κ) :
    ∀ (l l1 : List DailyRecord) (r : DailyRecord) (l2 : List DailyRecord),
      l = l1 ++ r :: l2 → f r ∉ l1.map f → r ∈ dropDupBy f l := by
  intro l
  induction l using dropDupBy.induct f with
  | case1 =>
    intro l1 r l2 h hf
    exact absurd h.symm (List.append_ne_nil_of_right_ne_nil l1 (List.cons_ne_nil r l2))
  | case2 a as ih =>
    intro l1 r l2 h hf
    rw [dropDupBy]
    cases l1 with
    | nil =>
      rw [List.nil_append] at h
      cases h
      exact List.mem_cons_self _ _
    | cons a2 t =>
      rw [List.cons_append] at h
      injection h with ha has
      subst ha
      simp only [List.map_cons, List.mem_cons, not_or] at hf
      obtain ⟨hfa, hft⟩ := hf
      have hqr : (!(f r == f a)) = true := by simpa using hfa
      have hsplit : as.filter (fun x => !(f x == f a)) =
          t.filter (fun x => !(f x == f a)) ++ r :: l2.filter (fun x => !(f x == f a)) := by
        rw [has, List.filter_append, List.filter_cons, hqr]
        simp
      refine List.mem_cons_of_mem a (ih _ _ _ hsplit ?_)
      intro hc
      obtain ⟨x, hx, hfx⟩ := List.mem_map.mp hc
      exact hft (List.mem_map.mpr ⟨x, (List.mem_filter.mp hx).1, hfx⟩)

/-- On a list sorted by descending weight whose equal-key records have
pairwise distinct weights, `dropDupBy` keeps exactly the maximum-weight
record of each key. -/
theorem mem_dropDupBy_sorted {κ : Type} [DecidableEq κ] (f : DailyRecord → κ)
    (w : DailyRecord → ℚ) :
    ∀ l : List DailyRecord,
      l.Pairwise (fun a b => w b ≤ w a) →
      (∀ r r2, r ∈ l → r2 ∈ l → f r = f r2 → w r = w r2 → r = r2) →
      ∀ r, r ∈ dropDupBy f l ↔
        (r ∈ l ∧ ∀ r2 ∈ l, f r2 = f r → w r2 ≤ w r) := by
  intro l
  induction l using dropDupBy.induct f with
  | case1 =>
    intro _ _ r
    simp [dropDupBy]
  | case2 a as ih =>
    intro hsort hdist r
    have ha : ∀ b ∈ as, w b ≤ w a := (List.pairwise_cons.mp hsort).1
    have hsort2 : (as.filter (fun x => !(f x == f a))).Pairwise (fun a b => w b ≤ w a) :=
      List.Pairwise.sublist (List.filter_sublist as) (List.pairwise_cons.mp hsort).2
    have hdist2 : ∀ r r2, r ∈ as.filter (fun x => !(f x == f a)) →
        r2 ∈ as.filter (fun x => !(f x == f a)) → f r = f r2 → w r = w r2 → r = r2 := by
      intro x y hx hy
      exact hdist x y (List.mem_cons_of_mem a (List.mem_filter.mp hx).1)
        (List.mem_cons_of_mem a (List.mem_filter.mp hy).1)
    have ihs := ih hsort2 hdist2
    rw [dropDupBy]
    constructor
    · intro h
      rcases List.mem_cons.mp h with h2 | h2
      · subst h2
        refine ⟨List.mem_cons_self _ _, ?_⟩
        intro r2 hr2 _
        rcases List.mem_cons.mp hr2 with h3 | h3
        · exact h3 ▸ le_refl _
        · exact ha r2 h3
      · obtain ⟨hrf, hmax⟩ := (ihs r).mp h2
        have hras := (List.mem_filter.mp hrf).1
        have hrne : ¬ f r = f a := by
          have := (List.mem_filter.mp hrf).2
          simpa using this
        refine ⟨List.mem_cons_of_mem a hras, ?_⟩
        intro r2 hr2 hfr2
        rcases List.mem_cons.mp hr2 with h3 | h3
        · exact absurd (h3 ▸ hfr2) (fun hc => hrne hc.symm)
        · by_cases hq : f r2 = f a
          · exact absurd (hfr2.symm.trans hq) hrne
          · refine hmax r2 (List.mem_filter.mpr ⟨h3, by simpa using hq⟩) hfr2
    · rintro ⟨hmem, hmax⟩
      rcases List.mem_cons.mp hmem with h2 | h2
      · exact h2 ▸ List.mem_cons_self _ _
      · by_cases hq : f r = f a
        · have h1 : w a ≤ w r := hmax a (List.mem_cons_self _ _) hq.symm
          have h2b : w r ≤ w a := ha r h2
          have : r = a := hdist r a (List.mem_cons_of_mem a h2) (List.mem_cons_self _ _)
            hq (le_antisymm h2b h1)
          exact this ▸ List.mem_cons_self _ _
        · have hrf : r ∈ as.filter (fun x => !(f x == f a)) :=
            List.mem_filter.mpr ⟨h2, by simpa using hq⟩
          refine List.mem_cons_of_mem a ((ihs r).mpr ⟨hrf, ?_⟩)
          intro r2 hr2 hfr2
          exact hmax r2 (List.mem_cons_of_mem a (List.mem_filter.mp hr2).1) hfr2

/-- The descending-turnover sort is a permutation of the batch and is sorted
by descending turnover. -/
theorem sortByTurnoverDesc_spec (batch : List DailyRecord) :
    (sortByTurnoverDesc batch).Perm batch ∧
    (sortByTurnoverDesc batch).Pairwise
      (fun a b => b.turnoverinrs ≤ a.turnoverinrs) := by
  refine ⟨List.mergeSort_perm batch _, ?_⟩
  have htrans : ∀ a b c : DailyRecord,
      decide (b.turnoverinrs ≤ a.turnoverinrs) = true →
      decide (c.turnoverinrs ≤ b.turnoverinrs) = true →
      decide (c.turnoverinrs ≤ a.turnoverinrs) = true := by
    intro a b c hab hbc
    simp only [decide_eq_true_eq] at hab hbc ⊢
    exact le_trans hbc hab
  have htotal : ∀ a b : DailyRecord,
      (decide (b.turnoverinrs ≤ a.turnoverinrs) ||
        decide (a.turnoverinrs ≤ b.turnoverinrs)) = true := by
    intro a b
    simp only [Bool.or_eq_true, decide_eq_true_eq]
    exact le_total b.turnoverinrs a.turnoverinrs
  have h := @List.sorted_mergeSort DailyRecord
    (fun a b : DailyRecord => decide (b.turnoverinrs ≤ a.turnoverinrs))
    htrans htotal batch
  exact h.imp (fun hab => by simpa using hab)

/-- Membership in the deduplicated batch: exactly the per-key
maximum-turnover records survive (assuming equal-key candidates have
pairwise distinct turnovers). -/
theorem dedupBatch_mem_iff (batch : List DailyRecord)
    (hdist : ∀ r ∈ batch, ∀ r2 ∈ batch, key r = key r2 →
      r.turnoverinrs = r2.turnoverinrs → r = r2) :
    ∀ r, r ∈ dedupBatch batch ↔
      (r ∈ batch ∧ ∀ r2 ∈ batch, key r2 = key r →
        r2.turnoverinrs ≤ r.turnoverinrs) := by
  obtain ⟨hperm, hsort⟩ := sortByTurnoverDesc_spec batch
  have hdistl : ∀ r r2, r ∈ sortByTurnoverDesc batch → r2 ∈ sortByTurnoverDesc batch →
      key r = key r2 → r.turnoverinrs = r2.turnoverinrs → r = r2 :=
    fun r r2 hr hr2 => hdist r (hperm.mem_iff.mp hr) r2 (hperm.mem_iff.mp hr2)
  intro r
  rw [dedupBatch, mem_dropDupBy_sorted key (fun x => x.turnoverinrs) _ hsort hdistl r]
  constructor
  · rintro ⟨h1, h2⟩
    exact ⟨hperm.mem_iff.mp h1, fun r2 hr2 => h2 r2 (hperm.mem_iff.mpr hr2)⟩
  · rintro ⟨h1, h2⟩
    exact ⟨hperm.mem_iff.mpr h1, fun r2 hr2 => h2 r2 (hperm.mem_iff.mp hr2)⟩

/-- C4: among same-(symbol, date) candidates with pairwise distinct
turnovers, exactly the maximum-turnover one survives the in-batch
deduplication, each key survives once, and the surviving set is unchanged
under any permutation of the input batch. -/
theorem c4_merge_keeps_max (batch : List DailyRecord)
    (hdist : ∀ r ∈ batch, ∀ r2 ∈ batch, key r = key r2 →
      r.turnoverinrs = r2.turnoverinrs → r = r2) :
    (∀ r, r ∈ dedupBatch batch ↔
      (r ∈ batch ∧ ∀ r2 ∈ batch, key r2 = key r →
        r2.turnoverinrs ≤ r.turnoverinrs)) ∧
    ((dedupBatch batch).map key).Nodup ∧
    (∀ batch2, batch2.Perm batch →
      ∀ r, r ∈ dedupBatch batch2 ↔ r ∈ dedupBatch batch) := by
  refine ⟨dedupBatch_mem_iff batch hdist, dropDupBy_keys_nodup key _, ?_⟩
  intro batch2 hp r
  have hdist2 : ∀ r ∈ batch2, ∀ r2 ∈ batch2, key r = key r2 →
      r.turnoverinrs = r2.turnoverinrs → r = r2 :=
    fun x hx y hy => hdist x (hp.mem_iff.mp hx) y (hp.mem_iff.mp hy)
  rw [dedupBatch_mem_iff batch2 hdist2 r, dedupBatch_mem_iff batch hdist r]
  constructor
  · rintro ⟨h1, h2⟩
    exact ⟨hp.mem_iff.mp h1, fun r2 hr2 => h2 r2 (hp.mem_iff.mpr hr2)⟩
  · rintro ⟨h1, h2⟩
    exact ⟨hp.mem_iff.mpr h1, fun r2 hr2 => h2 r2 (hp.mem_iff.mp hr2)⟩

/-- Witness for C4: of two candidates for key ("A", 1) with turnovers 10 and
5, the turnover-10 one survives — in either input order. -/
theorem c4_merge_keeps_max_witness :
    recHigh ∈ dedupBatch [recLow, recHigh] ∧
    (recHigh ∈ dedupBatch [recHigh, recLow] ↔ recHigh ∈ dedupBatch [recLow, recHigh]) := by
  have h := c4_merge_keeps_max [recLow, recHigh] (by decide)
  refine ⟨(h.1 recHigh).mpr (by decide), h.2.2 [recHigh, recLow] (by decide) recHigh⟩

/-- Row-by-row upsert of a unique-key staged list reads back as a lookup:
the staged row if the key is staged, the old row otherwise. -/
theorem applyRows_find :
    ∀ (l : List DailyRecord) (store : Store), (l.map key).Nodup → ∀ k,
      applyRows store l k =
        (match l.find? (fun r => key r == k) with
         | some r => some r
         | none => store k) := by
  intro l
  induction l with
  | nil => intro store h k; rfl
  | cons r rs ih =>
    intro store h k
    rw [List.map_cons, List.nodup_cons] at h
    obtain ⟨hnotin, hnd⟩ := h
    rw [applyRows, ih (applyRow store r) hnd k, List.find?_cons]
    by_cases hk : (key r == k) = true
    · simp only [hk]
      have hnone : rs.find? (fun x => key x == k) = none := by
        rw [List.find?_eq_none]
        intro x hx hq
        have hkx : key x = k := by simpa using hq
        have hkr : key r = k := by simpa using hk
        exact hnotin (List.mem_map.mpr ⟨x, hx, by rw [hkx, hkr]⟩)
      rw [hnone]
      simp only [applyRow]
      rw [if_pos hk]
    · have hk2 : (key r == k) = false := by simpa using hk
      simp only [hk2]
      cases hf : rs.find? (fun x => key x == k) with
      | some r2 => rfl
      | none =>
        simp only [applyRow]
        rw [if_neg hk]

/-- C5: merging the same batch twice leaves the persisted table exactly as
after merging it once. -/
theorem c5_merge_idempotent (store : Store) (batch : List DailyRecord) :
    mergeStore (mergeStore store batch) batch = mergeStore store batch := by
  funext k
  have hnd : ((dedupBatch batch).map key).Nodup := dropDupBy_keys_nodup key _
  rw [mergeStore, mergeStore, applyRows_find _ _ hnd k, applyRows_find _ _ hnd k]
  cases hf : (dedupBatch batch).find? (fun r => key r == k) with
  | some r => rfl
  | none => rfl

/-- Witness for C5 at a concrete store and batch. -/
theorem c5_merge_idempotent_witness :
    mergeStore (mergeStore emptyStore [recHigh]) [recHigh] =
      mergeStore emptyStore [recHigh] :=
  c5_merge_idempotent emptyStore [recHigh]

/-- C6: a storage-layer fault while writing any staged row aborts the whole
merge — the persisted table is exactly the pre-merge one and the failure
surfaces to the caller — while a fault-free run commits the whole staged
batch. -/
theorem c6_merge_atomic (faultAt : Option Nat) (store : Store)
    (batch : List DailyRecord) :
    (∀ i, faultAt = some i → i < (dedupBatch batch).length →
      mergeTxn faultAt store batch = (store, Except.error "MergeFailure")) ∧
    mergeTxn none store batch = (mergeStore store batch, Except.ok ()) := by
  refine ⟨fun i hf hi => ?_, rfl⟩
  subst hf
  simp only [mergeTxn]
  rw [if_pos hi]

/-- Witness for C6: a fault at the first staged row of a one-record batch
leaves the empty store untouched and reports the failure. -/
theorem c6_merge_atomic_witness :
    mergeTxn (some 0) emptyStore [recHigh] =
      (emptyStore, Except.error "MergeFailure") := by
  have h := c6_merge_atomic (some 0) emptyStore [recHigh]
  refine h.1 0 rfl ?_
  have hlen : dedupBatch [recHigh] = [recHigh] := by
    rw [dedupBatch, sortByTurnoverDesc, List.mergeSort_singleton]
    simp [dropDupBy]
  rw [hlen]
  decide

/-- Counterexample for C7: two partitions (older listed first, as `fs.ls`
lists the date-named directories ascending) both hold a record for date 5;
the loader keeps the OLDER partition's record even though the newer one is
the more recent write and has the strictly higher turnover — the survivor is
chosen by first occurrence, not by recency or turnover. -/
theorem c7_loader_counterexample :
    load_combined_symbol [[recOld], [recNew]] = [recOld] ∧
    recOld ≠ recNew ∧ recOld.turnoverinrs < recNew.turnoverinrs := by
  have hflat : ([[recOld], [recNew]] : List (List DailyRecord)).flatten =
      [recOld, recNew] := by simp
  have hdrop : dropDupBy (fun r => r.date) [recOld, recNew] = [recOld] := by
    rw [dropDupBy]
    simp [dropDupBy, recOld, recNew]
  have hload : load_combined_symbol [[recOld], [recNew]] = [recOld] := by
    rw [load_combined_symbol, hflat, hdrop, List.mergeSort_singleton]
  exact ⟨hload, by decide, by decide⟩

/-- C7 (amended): the loaded Series is sorted ascending by date with exactly
one record per distinct date, every loaded record comes from some partition,
the survivor for each date is the FIRST record carrying that date in
partition-listing order (oldest-listed partition wins; turnover is never
consulted), and a symbol found in no partition loads as the empty Series. -/
theorem c7_loader (partitions : List (List DailyRecord)) :
    (load_combined_symbol partitions).Pairwise
      (fun a b : DailyRecord => a.date ≤ b.date) ∧
    ((load_combined_symbol partitions).map (fun r => r.date)).Nodup ∧
    (∀ r, r ∈ load_combined_symbol partitions → r ∈ partitions.flatten) ∧
    (∀ l1 r l2, partitions.flatten = l1 ++ r :: l2 →
      r.date ∉ l1.map (fun x => x.date) → r ∈ load_combined_symbol partitions) ∧
    ((∀ p ∈ partitions, p = []) → load_combined_symbol partitions = []) := by
  have hperm : (load_combined_symbol partitions).Perm
      (dropDupBy (fun r => r.date) partitions.flatten) :=
    List.mergeSort_perm (dropDupBy (fun r => r.date) partitions.flatten) _
  refine ⟨?_, ?_, ?_, ?_, ?_⟩
  · have htrans : ∀ a b c : DailyRecord,
        decide (a.date ≤ b.date) = true → decide (b.date ≤ c.date) = true →
        decide (a.date ≤ c.date) = true := by
      intro a b c hab hbc
      simp only [decide_eq_true_eq] at hab hbc ⊢
      exact le_trans hab hbc
    have htotal : ∀ a b : DailyRecord,
        (decide (a.date ≤ b.date) || decide (b.date ≤ a.date)) = true := by
      intro a b
      simp only [Bool.or_eq_true, decide_eq_true_eq]
      exact le_total a.date b.date
    have h := @List.sorted_mergeSort DailyRecord
      (fun a b : DailyRecord => decide (a.date ≤ b.date)) htrans htotal
      (dropDupBy (fun r => r.date) partitions.flatten)
    exact h.imp (fun hab => by simpa using hab)
  · have h := dropDupBy_keys_nodup (fun r => r.date) partitions.flatten
    exact ((hperm.map (fun r => r.date)).nodup_iff).mpr h
  · intro r hr
    exact mem_of_mem_dropDupBy (fun x => x.date) _ r (hperm.mem_iff.mp hr)
  · intro l1 r l2 hsplit hnotin
    exact hperm.mem_iff.mpr
      (first_occurrence_mem_dropDupBy (fun x => x.date) _ l1 r l2 hsplit hnotin)
  · intro hall
    have hflat : partitions.flatten = [] := List.flatten_eq_nil_iff.mpr hall
    rw [load_combined_symbol, hflat]
    rw [show dropDupBy (fun r => r.date) [] = [] from by simp [dropDupBy]]
    exact List.mergeSort_nil

/-- Witness for C7: the date-5 record of the first-listed partition survives
loading, and loading from all-empty partitions yields the empty Series. -/
theorem c7_loader_witness :
    recOld ∈ load_combined_symbol [[recOld], [recNew]] ∧
    load_combined_symbol [[], []] = [] := by
  have h := c7_loader [[recOld], [recNew]]
  have h2 := c7_loader [[], []]
  exact ⟨h.2.2.2.1 [] recOld [recNew] (by simp) (by simp),
    h2.2.2.2.2 (by simp)⟩

end StockAnalytics
